import Mathlib

/-!
Verification of the Eulerian video magnification core
(`src/app/pyramid_utils.py` and `src/app/evm.py`).

The numeric pipeline is embedded shallowly with exact arithmetic:
float32 frame data becomes real numbers, complex FFT data becomes
complex numbers.  The OpenCV blur kernels inside `cv2.pyrDown` and
`cv2.pyrUp` are external library primitives; they are modelled as
abstract pixel-producing functions (parameters of the development)
while their documented shape behaviour is concrete:
`cv2.pyrDown(src)` with the default `dstsize` returns an image of size
`((cols + 1) / 2, (rows + 1) / 2)` (integer division, i.e. halving
rounded up), and `cv2.pyrUp(src, dstsize)` returns an image of exactly
the requested size.  `cv2.subtract` and `cv2.add` on float arrays are
plain elementwise subtraction and addition.
-/

/-- A frame or pyramid level: height, width, channel count and the
pixel data `data y x ch` (value outside the bounds is irrelevant to
every statement below). -/
@[ext] structure Img where
  h : ℕ
  w : ℕ
  c : ℕ
  data : ℕ → ℕ → ℕ → ℝ

instance : Inhabited Img := ⟨⟨0, 0, 0, fun _ _ _ => 0⟩⟩

section Pyramid

-- Abstract pixel content produced by the blur-and-decimate kernel of
-- `cv2.pyrDown` (external library primitive).
variable (pyrDownData : Img → ℕ → ℕ → ℕ → ℝ)

-- Abstract pixel content produced by the upsample kernel of
-- `cv2.pyrUp` at a requested destination size (external library
-- primitive).
variable (pyrUpData : Img → ℕ → ℕ → ℕ → ℕ → ℕ → ℝ)

/-- `cv2.pyrDown` with the default destination size
`((w + 1) / 2, (h + 1) / 2)`; the channel count is preserved. -/
def pyrDown (img : Img) : Img :=
  ⟨(img.h + 1) / 2, (img.w + 1) / 2, img.c, pyrDownData img⟩

/-- `cv2.pyrUp(img, dstsize=(dw, dh))`: output has exactly the
requested spatial size and the channel count of the input. -/
def pyrUp (img : Img) (dh dw : ℕ) : Img :=
  ⟨dh, dw, img.c, pyrUpData img dh dw⟩

/-- `cv2.subtract` on float data: elementwise subtraction (shape of
the first operand; the source only calls it on equal-shaped images). -/
def cvSub (a b : Img) : Img :=
  ⟨a.h, a.w, a.c, fun y x ch => a.data y x ch - b.data y x ch⟩

/-- `cv2.add` on float data: elementwise addition. -/
def cvAdd (a b : Img) : Img :=
  ⟨a.h, a.w, a.c, fun y x ch => a.data y x ch + b.data y x ch⟩

/-- The loop of `build_gaussian_pyramid`: starting image followed by
repeated `pyrDown`, `n` entries in total. -/
def gaussList (img : Img) : ℕ → List Img
  | 0 => []
  | n + 1 => img :: gaussList (pyrDown pyrDownData img) n

/-- `build_gaussian_pyramid(image, levels)` from
`src/app/pyramid_utils.py`: `pyramid = [image]`, then `levels - 1`
iterations of `image = cv2.pyrDown(image)` appended (`range(levels-1)`
is empty for `levels < 1`, so the result is then `[image]`). -/
def build_gaussian_pyramid (img : Img) (levels : ℤ) : List Img :=
  gaussList pyrDownData img ((levels - 1).toNat + 1)

/-- The loop of `build_laplacian_pyramid` applied to a Gaussian
pyramid: each level except the last becomes that level minus the
`pyrUp` of the next level (resized to the level being processed); the
final Gaussian level is kept unchanged. -/
def lapList : List Img → List Img
  | [] => []
  | [g] => [g]
  | g0 :: g1 :: rest =>
      cvSub g0 (pyrUp pyrUpData g1 g0.h g0.w) :: lapList (g1 :: rest)

/-- `build_laplacian_pyramid(image, levels)` from
`src/app/pyramid_utils.py`. -/
def build_laplacian_pyramid (img : Img) (levels : ℤ) : List Img :=
  lapList pyrUpData (build_gaussian_pyramid pyrDownData img levels)

/-- `reconstruct_from_laplacian_pyramid(pyramid)` from
`src/app/pyramid_utils.py`: start from the last level, then for each
finer level add the `pyrUp` of the accumulator (resized to that level)
to the level (the `astype(np.float32)` casts are identities here). -/
def reconstruct_from_laplacian_pyramid : List Img → Img
  | [] => default
  | [l] => l
  | l :: m :: rest =>
      cvAdd (pyrUp pyrUpData
          (reconstruct_from_laplacian_pyramid (m :: rest)) l.h l.w) l

end Pyramid

lemma reconstruct_cons (pu : Img → ℕ → ℕ → ℕ → ℕ → ℕ → ℝ) (l : Img)
    (M : List Img) (hM : M ≠ []) :
    reconstruct_from_laplacian_pyramid pu (l :: M) =
      cvAdd (pyrUp pu (reconstruct_from_laplacian_pyramid pu M) l.h l.w) l := by
  cases M with
  | nil => exact absurd rfl hM
  | cons m rest => rfl

lemma lapList_ne_nil (pu : Img → ℕ → ℕ → ℕ → ℕ → ℕ → ℝ) (g : Img)
    (rest : List Img) : lapList pu (g :: rest) ≠ [] := by
  cases rest with
  | nil => simp [lapList]
  | cons g1 r => simp [lapList]

lemma reconstruct_lapList_gaussList
    (pd : Img → ℕ → ℕ → ℕ → ℝ) (pu : Img → ℕ → ℕ → ℕ → ℕ → ℕ → ℝ)
    (n : ℕ) :
    ∀ img : Img,
      reconstruct_from_laplacian_pyramid pu
        (lapList pu (gaussList pd img (n + 1))) = img := by
  induction n with
  | zero => intro img; rfl
  | succ n ih =>
      intro img
      have hgl : gaussList pd img (n + 2) =
          img :: gaussList pd (pyrDown pd img) (n + 1) := rfl
      have hsub : gaussList pd (pyrDown pd img) (n + 1) =
          pyrDown pd img :: gaussList pd (pyrDown pd (pyrDown pd img)) n := rfl
      rw [hgl, hsub, lapList]
      rw [reconstruct_cons pu _ _ (lapList_ne_nil pu _ _)]
      rw [← hsub, ih (pyrDown pd img)]
      ext y x ch
      · rfl
      · rfl
      · rfl
      · simp [cvAdd, cvSub, pyrUp, pyrDown]

/-- Claim C1: for every frame and every `levels ≥ 2`, reconstructing
the Laplacian pyramid built from the frame reproduces the frame
exactly (in the exact-arithmetic model; in float32 this is exact up to
rounding): each Laplacian level is the Gaussian level minus the
upsample of the next coarser Gaussian level, and reconstruction
re-adds the identical upsample. -/
theorem C1_laplacian_round_trip
    (pd : Img → ℕ → ℕ → ℕ → ℝ) (pu : Img → ℕ → ℕ → ℕ → ℕ → ℕ → ℝ)
    (img : Img) (levels : ℤ) (hlev : 2 ≤ levels) :
    reconstruct_from_laplacian_pyramid pu
      (build_laplacian_pyramid pd pu img levels) = img := by
  unfold build_laplacian_pyramid build_gaussian_pyramid
  exact reconstruct_lapList_gaussList pd pu ((levels - 1).toNat) img

/-- Concrete zero kernel standing in for the abstract `pyrDown` pixel
content in closed statements. -/
def pd0 : Img → ℕ → ℕ → ℕ → ℝ := fun _ _ _ _ => 0

/-- Concrete zero kernel standing in for the abstract `pyrUp` pixel
content in closed statements. -/
def pu0 : Img → ℕ → ℕ → ℕ → ℕ → ℕ → ℝ := fun _ _ _ _ _ _ => 0

/-- A concrete 5 by 5, 3-channel frame. -/
def img5 : Img := ⟨5, 5, 3, fun _ _ _ => 0⟩

theorem C1_laplacian_round_trip_witness :
    reconstruct_from_laplacian_pyramid pu0
      (build_laplacian_pyramid pd0 pu0 img5 3) = img5 :=
  C1_laplacian_round_trip pd0 pu0 img5 3 (by decide)

lemma gaussList_length (pd : Img → ℕ → ℕ → ℕ → ℝ) :
    ∀ (n : ℕ) (img : Img), (gaussList pd img n).length = n := by
  intro n
  induction n with
  | zero => intro img; rfl
  | succ n ih => intro img; simpa [gaussList] using ih (pyrDown pd img)

lemma gaussList_getD_succ (pd : Img → ℕ → ℕ → ℕ → ℝ) :
    ∀ (n : ℕ) (img : Img) (i : ℕ), i + 1 < n →
      (gaussList pd img n).getD (i + 1) default =
        pyrDown pd ((gaussList pd img n).getD i default) := by
  intro n
  induction n with
  | zero => intro img i h; omega
  | succ n ih =>
      intro img i h
      cases i with
      | zero =>
          cases n with
          | zero => omega
          | succ m => rfl
      | succ j =>
          have h1 : (gaussList pd img (n + 1)).getD (j + 2) default =
              (gaussList pd (pyrDown pd img) n).getD (j + 1) default := rfl
          rw [h1, ih (pyrDown pd img) j (by omega)]
          rfl

lemma gaussList_mem_c (pd : Img → ℕ → ℕ → ℕ → ℝ) :
    ∀ (n : ℕ) (img : Img) (l : Img), l ∈ gaussList pd img n → l.c = img.c := by
  intro n
  induction n with
  | zero => intro img l hl; simp [gaussList] at hl
  | succ n ih =>
      intro img l hl
      simp only [gaussList, List.mem_cons] at hl
      rcases hl with hl | hl
      · rw [hl]
      · rw [ih (pyrDown pd img) l hl]; rfl

lemma gaussList_dims_ge_one (pd : Img → ℕ → ℕ → ℕ → ℝ) :
    ∀ (n : ℕ) (img : Img), 1 ≤ img.h → 1 ≤ img.w →
      ∀ l ∈ gaussList pd img n, 1 ≤ l.h ∧ 1 ≤ l.w := by
  intro n
  induction n with
  | zero => intro img _ _ l hl; simp [gaussList] at hl
  | succ n ih =>
      intro img h1 h2 l hl
      simp only [gaussList, List.mem_cons] at hl
      rcases hl with hl | hl
      · rw [hl]; exact ⟨h1, h2⟩
      · exact ih (pyrDown pd img) (by simp [pyrDown]; omega)
          (by simp [pyrDown]; omega) l hl

lemma lapList_length (pu : Img → ℕ → ℕ → ℕ → ℕ → ℕ → ℝ) :
    ∀ l : List Img, (lapList pu l).length = l.length := by
  intro l
  induction l using lapList.induct pu with
  | case1 => rfl
  | case2 g => rfl
  | case3 g0 g1 rest ih => simpa [lapList] using ih

lemma lapList_getD_shape (pu : Img → ℕ → ℕ → ℕ → ℕ → ℕ → ℝ) :
    ∀ (l : List Img) (i : ℕ), i < l.length →
      ((lapList pu l).getD i default).h = (l.getD i default).h ∧
      ((lapList pu l).getD i default).w = (l.getD i default).w ∧
      ((lapList pu l).getD i default).c = (l.getD i default).c := by
  intro l
  induction l using lapList.induct pu with
  | case1 => intro i hi; simp at hi
  | case2 g =>
      intro i hi
      have hi0 : i = 0 := by simpa using Nat.lt_one_iff.mp (by simpa using hi)
      rw [hi0]
      exact ⟨rfl, rfl, rfl⟩
  | case3 g0 g1 rest ih =>
      intro i hi
      cases i with
      | zero => exact ⟨rfl, rfl, rfl⟩
      | succ j => exact ih j (by simpa using hi)

/-- Claim C4 (counterexample to the claim as stated): on a 5 by 5
frame the second Gaussian level has height 3, which is the halved
height rounded UP, not the claimed rounded-down value 5 / 2 = 2
(`cv2.pyrDown` defaults to dstsize `((w+1)/2, (h+1)/2)`). -/
theorem C4_counterexample :
    ((build_gaussian_pyramid pd0 img5 2).getD 1 default).h = 3 ∧
    ((build_gaussian_pyramid pd0 img5 2).getD 1 default).h ≠ img5.h / 2 := by
  constructor
  · rfl
  · decide

/-- Claim C4 (amended): for `levels ≥ 1` the Gaussian pyramid has
exactly `levels` entries, level 0 is the input frame unchanged, each
next level has the spatial dimensions of the previous one halved
rounded UP (`(d+1)/2`, the `cv2.pyrDown` default), and every level
keeps the channel count of the source; the Laplacian pyramid has the
same length and the same per-level spatial dimensions and channel
counts. -/
theorem C4_pyramid_shape_invariant
    (pd : Img → ℕ → ℕ → ℕ → ℝ) (pu : Img → ℕ → ℕ → ℕ → ℕ → ℕ → ℝ)
    (img : Img) (levels : ℤ) (hlev : 1 ≤ levels) :
    (build_gaussian_pyramid pd img levels).length = levels.toNat ∧
    (build_gaussian_pyramid pd img levels).getD 0 default = img ∧
    (∀ i : ℕ, i + 1 < (build_gaussian_pyramid pd img levels).length →
      ((build_gaussian_pyramid pd img levels).getD (i + 1) default).h =
        (((build_gaussian_pyramid pd img levels).getD i default).h + 1) / 2 ∧
      ((build_gaussian_pyramid pd img levels).getD (i + 1) default).w =
        (((build_gaussian_pyramid pd img levels).getD i default).w + 1) / 2) ∧
    (∀ l ∈ build_gaussian_pyramid pd img levels, l.c = img.c) ∧
    (build_laplacian_pyramid pd pu img levels).length = levels.toNat ∧
    (∀ i : ℕ, i < (build_gaussian_pyramid pd img levels).length →
      ((build_laplacian_pyramid pd pu img levels).getD i default).h =
        ((build_gaussian_pyramid pd img levels).getD i default).h ∧
      ((build_laplacian_pyramid pd pu img levels).getD i default).w =
        ((build_gaussian_pyramid pd img levels).getD i default).w ∧
      ((build_laplacian_pyramid pd pu img levels).getD i default).c =
        ((build_gaussian_pyramid pd img levels).getD i default).c) := by
  have hn : (levels - 1).toNat + 1 = levels.toNat := by omega
  refine ⟨?_, rfl, ?_, ?_, ?_, ?_⟩
  · unfold build_gaussian_pyramid
    rw [gaussList_length pd]
    exact hn
  · intro i hi
    unfold build_gaussian_pyramid at hi ⊢
    rw [gaussList_length pd] at hi
    rw [gaussList_getD_succ pd _ img i hi]
    exact ⟨rfl, rfl⟩
  · intro l hl
    exact gaussList_mem_c pd _ img l hl
  · unfold build_laplacian_pyramid build_gaussian_pyramid
    rw [lapList_length pu, gaussList_length pd]
    exact hn
  · intro i hi
    unfold build_gaussian_pyramid at hi ⊢
    rw [gaussList_length pd] at hi
    unfold build_laplacian_pyramid build_gaussian_pyramid
    exact lapList_getD_shape pu _ i (by rw [gaussList_length pd]; exact hi)

theorem C4_pyramid_shape_invariant_witness :
    (build_gaussian_pyramid pd0 img5 2).length = 2 ∧
    (build_gaussian_pyramid pd0 img5 2).getD 0 default = img5 :=
  ⟨(C4_pyramid_shape_invariant pd0 pu0 img5 2 (by decide)).1,
   (C4_pyramid_shape_invariant pd0 pu0 img5 2 (by decide)).2.1⟩

/-- Claim C7 (counterexample to the claim as stated): at
`levels = -1 < 1` the code raises no `InvalidLevelCount` error; the
loop `range(levels - 1)` is simply empty and a one-level pyramid is
returned. -/
theorem C7_counterexample :
    (build_gaussian_pyramid pd0 img5 (-1)).length = 1 := by decide

/-- Claim C7 (amended): `build_gaussian_pyramid` performs no
validation at all: for `levels < 1` it returns the one-level pyramid
`[image]` (no `InvalidLevelCount` error), and since `cv2.pyrDown`
maps a dimension `d ≥ 1` to `(d+1)/2 ≥ 1`, no spatial dimension ever
drops below 1 pixel, so no `DimensionTooSmall` condition exists
either; the function succeeds for every frame and every level
count. -/
theorem C7_no_validation (pd : Img → ℕ → ℕ → ℕ → ℝ) :
    (∀ (img : Img) (levels : ℤ), levels < 1 →
      build_gaussian_pyramid pd img levels = [img]) ∧
    (∀ (img : Img) (levels : ℤ), 1 ≤ img.h → 1 ≤ img.w →
      ∀ l ∈ build_gaussian_pyramid pd img levels, 1 ≤ l.h ∧ 1 ≤ l.w) := by
  constructor
  · intro img levels hl
    unfold build_gaussian_pyramid
    have h0 : (levels - 1).toNat = 0 := by omega
    rw [h0]
    rfl
  · intro img levels h1 h2
    exact gaussList_dims_ge_one pd _ img h1 h2

theorem C7_no_validation_witness :
    build_gaussian_pyramid pd0 img5 0 = [img5] :=
  (C7_no_validation pd0).1 img5 0 (by decide)

/-!
Temporal bandpass filter (`temporal_bandpass_filter` in
`src/app/evm.py`).  `np.fft.fft(data, axis=0)` acts independently on
every (spatial position, channel) time series, so the filter is
embedded per series: a series is a function from the time index, and
the volume-level filter applies the per-series filter at every
position.  `np.fft.fft` computes `X_k = sum_t x_t exp(-2 pi i k t / n)`
and `np.fft.ifft` computes `x_t = (1/n) sum_k X_k exp(2 pi i k t / n)`.
-/

/-- The root `exp(-2 pi i / n)` used by the forward `np.fft.fft`. -/
noncomputable def dftRoot (n : ℕ) : ℂ :=
  Complex.exp (-(2 * Real.pi * Complex.I) / n)

/-- The root `exp(2 pi i / n)` used by the inverse `np.fft.ifft`. -/
noncomputable def idftRoot (n : ℕ) : ℂ :=
  Complex.exp (2 * Real.pi * Complex.I / n)

/-- `np.fft.fft` of a real-valued length-`n` time series: bin `k` is
`sum_{t<n} x_t * dftRoot(n)^(k*t)`. -/
noncomputable def npFFT (n : ℕ) (x : ℕ → ℝ) (k : ℕ) : ℂ :=
  ∑ t in Finset.range n, (x t : ℂ) * dftRoot n ^ (k * t)

/-- `np.fft.ifft` of a length-`n` spectrum: sample `t` is
`(1/n) * sum_{k<n} X_k * idftRoot(n)^(k*t)`. -/
noncomputable def npIFFT (n : ℕ) (X : ℕ → ℂ) (t : ℕ) : ℂ :=
  (n : ℂ)⁻¹ * ∑ k in Finset.range n, X k * idftRoot n ^ (k * t)

/-- `np.fft.fftfreq(n, d=1/fps)`: bin `j` carries frequency
`j*fps/n` for `j < (n+1)/2` and the aliased negative frequency
`(j-n)*fps/n` otherwise. -/
noncomputable def fftfreq (n : ℕ) (fps : ℝ) (j : ℕ) : ℝ :=
  if j < (n + 1) / 2 then j * fps / n else ((j : ℝ) - n) * fps / n

/-- The masked spectrum: `fft_data_filtered` after
`fft_data_filtered[~mask] = 0`, where
`mask = (abs(frequencies) >= low_freq) & (abs(frequencies) <= high_freq)`:
bins whose absolute frequency lies inside the inclusive band keep
their FFT value, every other bin is zeroed. -/
noncomputable def maskedFFT
    (n : ℕ) (fps low_freq high_freq : ℝ) (x : ℕ → ℝ) (k : ℕ) : ℂ :=
  if low_freq ≤ |fftfreq n fps k| ∧ |fftfreq n fps k| ≤ high_freq then
    npFFT n x k
  else 0

/-- `temporal_bandpass_filter(data, fps, low_freq, high_freq, axis=0)`
from `src/app/evm.py`, per (spatial position, channel) series: FFT
along time, zero every bin whose absolute `fftfreq` frequency lies
outside the inclusive band `[low_freq, high_freq]` (the code masks a
copy of the FFT array), inverse FFT, keep the real part. -/
noncomputable def temporal_bandpass_filter
    (n : ℕ) (fps low_freq high_freq : ℝ) (x : ℕ → ℝ) (t : ℕ) : ℝ :=
  (npIFFT n (maskedFFT n fps low_freq high_freq x) t).re

/-- A temporal volume: one pyramid level across the whole video,
shape `(nt, h, w, c)` with data `data t y x ch`. -/
@[ext] structure Vol where
  nt : ℕ
  h : ℕ
  w : ℕ
  c : ℕ
  data : ℕ → ℕ → ℕ → ℕ → ℝ

/-- `np.zeros_like(level_video)`: same shape, all zeros. -/
def zeros_like (V : Vol) : Vol :=
  ⟨V.nt, V.h, V.w, V.c, fun _ _ _ _ => 0⟩

/-- The volume-level action of `temporal_bandpass_filter` with
`axis=0`: the per-series filter applied independently at every
spatial position and channel; the output shape equals the input
shape. -/
noncomputable def bandpassVol (fps low_freq high_freq : ℝ) (V : Vol) : Vol :=
  ⟨V.nt, V.h, V.w, V.c, fun t y x ch =>
    temporal_bandpass_filter V.nt fps low_freq high_freq
      (fun s => V.data s y x ch) t⟩

lemma fftfreq_zero (n : ℕ) (fps : ℝ) : fftfreq n fps 0 = 0 := by
  unfold fftfreq
  split
  · simp
  · rename_i hcond
    have hn : n = 0 := by omega
    subst hn
    simp

lemma dftRoot_isPrimitiveRoot (n : ℕ) (hn : n ≠ 0) :
    IsPrimitiveRoot (dftRoot n) n := by
  have h := Complex.isPrimitiveRoot_exp n hn
  have heq : dftRoot n = (Complex.exp (2 * Real.pi * Complex.I / n))⁻¹ := by
    rw [dftRoot, ← Complex.exp_neg, neg_div]
  rw [heq]
  exact h.inv

lemma npFFT_const (n : ℕ) (c : ℝ) (k : ℕ) (hk : k < n) (hk0 : k ≠ 0) :
    npFFT n (fun _ => c) k = 0 := by
  have hn : n ≠ 0 := by omega
  have hprim := dftRoot_isPrimitiveRoot n hn
  have hne : dftRoot n ^ k ≠ 1 :=
    hprim.pow_ne_one_of_pos_of_lt (Nat.pos_of_ne_zero hk0) hk
  unfold npFFT
  have hcongr : ∀ t ∈ Finset.range n,
      (c : ℂ) * dftRoot n ^ (k * t) = (c : ℂ) * (dftRoot n ^ k) ^ t := by
    intro t _
    rw [pow_mul]
  rw [Finset.sum_congr rfl hcongr, ← Finset.mul_sum, geom_sum_eq hne]
  have hpow : (dftRoot n ^ k) ^ n = 1 := by
    rw [← pow_mul, mul_comm, pow_mul, hprim.pow_eq_one, one_pow]
  rw [hpow]
  simp

lemma npFFT_const_zero (n : ℕ) (c : ℝ) :
    npFFT n (fun _ => c) 0 = (n : ℂ) * c := by
  unfold npFFT
  simp [mul_comm]

lemma npIFFT_eq_zero (n : ℕ) (X : ℕ → ℂ) (t : ℕ)
    (h : ∀ k ∈ Finset.range n, X k = 0) : npIFFT n X t = 0 := by
  unfold npIFFT
  rw [Finset.sum_eq_zero (fun k hk => by rw [h k hk, zero_mul])]
  simp

lemma npIFFT_single (n : ℕ) (X : ℕ → ℂ) (t : ℕ) (hn : 1 ≤ n)
    (h : ∀ k ∈ Finset.range n, k ≠ 0 → X k = 0) :
    npIFFT n X t = (n : ℂ)⁻¹ * X 0 := by
  unfold npIFFT
  rw [Finset.sum_eq_single_of_mem 0 (Finset.mem_range.mpr (by omega))]
  · simp
  · intro k hk hk0
    rw [h k hk hk0, zero_mul]

lemma maskedFFT_const (n : ℕ) (fps low_freq high_freq c : ℝ)
    (hlow : 0 < low_freq) :
    ∀ k ∈ Finset.range n,
      maskedFFT n fps low_freq high_freq (fun _ => c) k = 0 := by
  intro k hk
  unfold maskedFFT
  rcases Nat.eq_zero_or_pos k with hk0 | hkpos
  · subst hk0
    rw [if_neg]
    rw [fftfreq_zero, abs_zero]
    intro hcon
    linarith [hcon.1]
  · rw [npFFT_const n c k (Finset.mem_range.mp hk) (by omega)]
    split <;> rfl

lemma filter_const_eq_zero (n : ℕ) (fps low_freq high_freq c : ℝ)
    (hlow : 0 < low_freq) (t : ℕ) :
    temporal_bandpass_filter n fps low_freq high_freq (fun _ => c) t = 0 := by
  unfold temporal_bandpass_filter
  rw [npIFFT_eq_zero n _ t (maskedFFT_const n fps low_freq high_freq c hlow)]
  rfl

/-- A concrete constant temporal volume for closed statements. -/
def Vconst : Vol := ⟨2, 8, 8, 3, fun _ _ _ _ => 3⟩

/-- Claim C5: a temporal volume that is constant along the time axis,
filtered with `low_freq > 0`, yields the all-zero volume (exactly, in
the exact-arithmetic model): the DC bin is excluded from the passband
because `|0| < low_freq`, and all other bins of a constant signal are
already zero. -/
theorem C5_dc_rejection (fps low_freq high_freq : ℝ) (V : Vol)
    (hlow : 0 < low_freq)
    (hconst : ∀ t s y x ch, V.data t y x ch = V.data s y x ch) :
    bandpassVol fps low_freq high_freq V = zeros_like V := by
  unfold bandpassVol zeros_like
  ext t y x ch
  · rfl
  · rfl
  · rfl
  · rfl
  · show temporal_bandpass_filter V.nt fps low_freq high_freq
        (fun s => V.data s y x ch) t = 0
    have hx : (fun s => V.data s y x ch) = fun _ => V.data 0 y x ch :=
      funext fun s => hconst s 0 y x ch
    rw [hx]
    exact filter_const_eq_zero V.nt fps low_freq high_freq _ hlow t

theorem C5_dc_rejection_witness :
    bandpassVol 30 1 2 Vconst = zeros_like Vconst :=
  C5_dc_rejection 30 1 2 Vconst one_pos (fun _ _ _ _ _ => rfl)

/-- Claim C10: with `low_freq = 0` the DC bin satisfies the inclusive
mask `0 <= |0| <= high_freq`, so a volume constant along time passes
through the filter unchanged: bin 0 holds `n*c`, every other bin of a
constant signal is zero, and the inverse FFT returns the constant. -/
theorem C10_dc_retained_at_zero_low (fps high_freq : ℝ) (V : Vol)
    (hnt : 1 ≤ V.nt) (hhigh : 0 ≤ high_freq)
    (hconst : ∀ t s y x ch, V.data t y x ch = V.data s y x ch) :
    bandpassVol fps 0 high_freq V = V := by
  unfold bandpassVol
  ext t y x ch
  · rfl
  · rfl
  · rfl
  · rfl
  · show temporal_bandpass_filter V.nt fps 0 high_freq
        (fun s => V.data s y x ch) t = V.data t y x ch
    have hx : (fun s => V.data s y x ch) = fun _ => V.data 0 y x ch :=
      funext fun s => hconst s 0 y x ch
    rw [hx]
    unfold temporal_bandpass_filter
    rw [npIFFT_single V.nt _ t hnt]
    · unfold maskedFFT
      rw [if_pos, npFFT_const_zero]
      · rw [← mul_assoc, inv_mul_cancel₀, one_mul]
        · rw [Complex.ofReal_re]
          exact hconst 0 t y x ch
        · exact_mod_cast (by omega : V.nt ≠ 0)
      · refine ⟨abs_nonneg _, ?_⟩
        rw [fftfreq_zero, abs_zero]
        exact hhigh
    · intro k hk hk0
      unfold maskedFFT
      rw [npFFT_const V.nt _ k (Finset.mem_range.mp hk) hk0]
      split <;> rfl

theorem C10_dc_retained_at_zero_low_witness :
    bandpassVol 30 0 2 Vconst = Vconst :=
  C10_dc_retained_at_zero_low 30 2 Vconst (by decide) zero_le_two
    (fun _ _ _ _ _ => rfl)

lemma filter_single_frame (fps low_freq high_freq : ℝ) (x : ℕ → ℝ)
    (hlow : 0 < low_freq) (t : ℕ) :
    temporal_bandpass_filter 1 fps low_freq high_freq x t = 0 := by
  unfold temporal_bandpass_filter
  rw [npIFFT_eq_zero]
  · rfl
  · intro k hk
    have hk0 : k = 0 := by simpa using hk
    subst hk0
    unfold maskedFFT
    rw [if_neg]
    rw [fftfreq_zero, abs_zero]
    intro hcon
    linarith [hcon.1]

/-- A concrete single-frame temporal volume. -/
def V1 : Vol := ⟨1, 8, 8, 3, fun _ _ _ _ => 5⟩

/-- Claim C8 (counterexample to the claim as stated): on a one-frame
volume (`numFrames = 1 < 2`) the code raises no `InsufficientFrames`
error; `np.fft.fft` of a single sample is defined and the filter
returns a well-formed volume of the same shape (all zero here since
the only bin, DC, is outside the band `[1, 2]`). -/
theorem C8_counterexample :
    (bandpassVol 30 1 2 V1).nt = 1 ∧ bandpassVol 30 1 2 V1 = zeros_like V1 := by
  refine ⟨rfl, ?_⟩
  unfold bandpassVol zeros_like
  ext t y x ch
  · rfl
  · rfl
  · rfl
  · rfl
  · show temporal_bandpass_filter V1.nt 30 1 2 (fun s => V1.data s y x ch) t = 0
    exact filter_single_frame 30 1 2 _ one_pos t

/-- Claim C8 (amended): `temporal_bandpass_filter` performs no frame
count check: it is defined for every `numFrames ≥ 1`, always returns
a volume of exactly the input shape, and on a single-frame volume
with `low_freq > 0` it returns the all-zero volume (the lone DC bin
is masked out) instead of failing. -/
theorem C8_no_insufficient_frames_check (fps low_freq high_freq : ℝ)
    (V : Vol) (hnt : 1 ≤ V.nt) (hlow : 0 < low_freq) :
    (bandpassVol fps low_freq high_freq V).nt = V.nt ∧
    (bandpassVol fps low_freq high_freq V).h = V.h ∧
    (bandpassVol fps low_freq high_freq V).w = V.w ∧
    (bandpassVol fps low_freq high_freq V).c = V.c ∧
    (V.nt = 1 → bandpassVol fps low_freq high_freq V = zeros_like V) := by
  refine ⟨rfl, rfl, rfl, rfl, ?_⟩
  intro h1
  unfold bandpassVol zeros_like
  ext t y x ch
  · rfl
  · rfl
  · rfl
  · rfl
  · show temporal_bandpass_filter V.nt fps low_freq high_freq
        (fun s => V.data s y x ch) t = 0
    rw [h1]
    exact filter_single_frame fps low_freq high_freq _ hlow t

theorem C8_no_insufficient_frames_check_witness :
    (bandpassVol 30 1 2 Vconst).nt = Vconst.nt ∧
    bandpassVol 30 1 2 V1 = zeros_like V1 :=
  ⟨(C8_no_insufficient_frames_check 30 1 2 Vconst (by decide) one_pos).1,
   (C8_no_insufficient_frames_check 30 1 2 V1 (by decide) one_pos).2.2.2.2 rfl⟩

/-- Modelled from the claim wording for C2: the frequency of bin `j`
under the standard DFT mapping `j*fps/numFrames`, with bins in the
upper half folded to their negative aliases `(j-n)*fps/n`. -/
noncomputable def specFoldedFreq (n : ℕ) (fps : ℝ) (j : ℕ) : ℝ :=
  if 2 * j ≤ n then j * fps / n else ((j : ℝ) - n) * fps / n

/-- Modelled from the claim wording for C2: DFT along time, zero
every bin whose absolute folded frequency lies strictly outside the
inclusive band `[low_freq, high_freq]`, inverse DFT, keep only the
real component. -/
noncomputable def bandpass_spec
    (n : ℕ) (fps low_freq high_freq : ℝ) (x : ℕ → ℝ) (t : ℕ) : ℝ :=
  (npIFFT n
    (fun k =>
      if low_freq ≤ |specFoldedFreq n fps k| ∧
          |specFoldedFreq n fps k| ≤ high_freq then
        npFFT n x k
      else 0) t).re

/-- The volume-level form of `bandpass_spec`, output shaped exactly
like the input. -/
noncomputable def bandpassSpecVol (fps low_freq high_freq : ℝ) (V : Vol) : Vol :=
  ⟨V.nt, V.h, V.w, V.c, fun t y x ch =>
    bandpass_spec V.nt fps low_freq high_freq (fun s => V.data s y x ch) t⟩

lemma abs_fftfreq_eq_abs_specFoldedFreq (n : ℕ) (fps : ℝ) (j : ℕ) :
    |fftfreq n fps j| = |specFoldedFreq n fps j| := by
  unfold fftfreq specFoldedFreq
  by_cases h1 : j < (n + 1) / 2 <;> by_cases h2 : 2 * j ≤ n
  · rw [if_pos h1, if_pos h2]
  · exact absurd (by omega : 2 * j ≤ n) h2
  · rw [if_neg h1, if_pos h2]
    have hj : 2 * j = n := by omega
    have hcast : (n : ℝ) = 2 * (j : ℝ) := by exact_mod_cast hj.symm
    rw [hcast]
    have hneg : ((j : ℝ) - 2 * (j : ℝ)) = -(j : ℝ) := by ring
    rw [hneg, neg_mul, neg_div, abs_neg]
  · rw [if_neg h1, if_neg h2]

/-- Claim C2: `temporal_bandpass_filter` equals the per-series DFT,
followed by zeroing every bin whose absolute folded frequency
`|f_j|` (standard mapping `j*fps/n` with negative-frequency folding)
lies outside the inclusive band `[low_freq, high_freq]`, the inverse
DFT, and keeping only the real component; and the output volume has
exactly the shape of the input. -/
theorem C2_filter_matches_spec (fps low_freq high_freq : ℝ) (V : Vol)
    (hfps : 0 < fps) (hlow : 0 ≤ low_freq) (hband : low_freq < high_freq) :
    bandpassVol fps low_freq high_freq V = bandpassSpecVol fps low_freq high_freq V ∧
    (bandpassVol fps low_freq high_freq V).nt = V.nt ∧
    (bandpassVol fps low_freq high_freq V).h = V.h ∧
    (bandpassVol fps low_freq high_freq V).w = V.w ∧
    (bandpassVol fps low_freq high_freq V).c = V.c := by
  refine ⟨?_, rfl, rfl, rfl, rfl⟩
  unfold bandpassVol bandpassSpecVol
  ext t y x ch
  · rfl
  · rfl
  · rfl
  · rfl
  · show temporal_bandpass_filter V.nt fps low_freq high_freq
        (fun s => V.data s y x ch) t
      = bandpass_spec V.nt fps low_freq high_freq (fun s => V.data s y x ch) t
    unfold temporal_bandpass_filter bandpass_spec
    have hm : maskedFFT V.nt fps low_freq high_freq (fun s => V.data s y x ch)
        = fun k =>
            if low_freq ≤ |specFoldedFreq V.nt fps k| ∧
                |specFoldedFreq V.nt fps k| ≤ high_freq then
              npFFT V.nt (fun s => V.data s y x ch) k
            else 0 := by
      funext k
      unfold maskedFFT
      rw [abs_fftfreq_eq_abs_specFoldedFreq]
    rw [hm]

theorem C2_filter_matches_spec_witness :
    bandpassVol 1 0 1 Vconst = bandpassSpecVol 1 0 1 Vconst :=
  (C2_filter_matches_spec 1 0 1 Vconst one_pos (le_refl 0) one_pos).1

/-- Step 4 of `eulerian_magnification` in `src/app/evm.py`:
`level * amplification_factor`, elementwise scalar multiplication. -/
def amplifyVol (amplification_factor : ℝ) (V : Vol) : Vol :=
  ⟨V.nt, V.h, V.w, V.c,
    fun t y x ch => V.data t y x ch * amplification_factor⟩

/-- Elementwise scaling of a volume by a scalar on the left, used to
state linearity. -/
def scaleVol (a : ℝ) (V : Vol) : Vol :=
  ⟨V.nt, V.h, V.w, V.c, fun t y x ch => a * V.data t y x ch⟩

lemma npFFT_smul (n : ℕ) (a : ℝ) (x : ℕ → ℝ) (k : ℕ) :
    npFFT n (fun s => a * x s) k = (a : ℂ) * npFFT n x k := by
  unfold npFFT
  rw [Finset.mul_sum]
  refine Finset.sum_congr rfl fun s _ => ?_
  push_cast
  ring

lemma maskedFFT_smul (n : ℕ) (fps low_freq high_freq a : ℝ) (x : ℕ → ℝ)
    (k : ℕ) :
    maskedFFT n fps low_freq high_freq (fun s => a * x s) k
      = (a : ℂ) * maskedFFT n fps low_freq high_freq x k := by
  unfold maskedFFT
  split
  · rw [npFFT_smul]
  · rw [mul_zero]

lemma npIFFT_smul (n : ℕ) (a : ℂ) (X : ℕ → ℂ) (t : ℕ) :
    npIFFT n (fun k => a * X k) t = a * npIFFT n X t := by
  unfold npIFFT
  have hc : ∀ k ∈ Finset.range n,
      a * X k * idftRoot n ^ (k * t) = a * (X k * idftRoot n ^ (k * t)) :=
    fun k _ => by ring
  rw [Finset.sum_congr rfl hc, ← Finset.mul_sum]
  ring

lemma filter_smul (n : ℕ) (fps low_freq high_freq a : ℝ) (x : ℕ → ℝ)
    (t : ℕ) :
    temporal_bandpass_filter n fps low_freq high_freq (fun s => a * x s) t
      = a * temporal_bandpass_filter n fps low_freq high_freq x t := by
  unfold temporal_bandpass_filter
  have hm : maskedFFT n fps low_freq high_freq (fun s => a * x s)
      = fun k => (a : ℂ) * maskedFFT n fps low_freq high_freq x k :=
    funext fun k => maskedFFT_smul n fps low_freq high_freq a x k
  rw [hm, npIFFT_smul, Complex.re_ofReal_mul]

/-- Claim C6: the filter is linear in its input (filtering a scaled
volume scales the filtered volume identically), and amplification is
elementwise multiplication by the scalar `amplification_factor`, so
doubling it exactly doubles every value of the amplified volume. -/
theorem C6_amplification_linearity :
    (∀ (fps low_freq high_freq a : ℝ) (V : Vol),
      bandpassVol fps low_freq high_freq (scaleVol a V)
        = scaleVol a (bandpassVol fps low_freq high_freq V)) ∧
    (∀ (amplification_factor : ℝ) (F : Vol),
      amplifyVol (2 * amplification_factor) F
        = scaleVol 2 (amplifyVol amplification_factor F)) := by
  constructor
  · intro fps low_freq high_freq a V
    unfold bandpassVol scaleVol
    ext t y x ch
    · rfl
    · rfl
    · rfl
    · rfl
    · show temporal_bandpass_filter V.nt fps low_freq high_freq
          (fun s => a * V.data s y x ch) t
        = a * temporal_bandpass_filter V.nt fps low_freq high_freq
            (fun s => V.data s y x ch) t
      exact filter_smul V.nt fps low_freq high_freq a _ t
  · intro amplification_factor F
    unfold amplifyVol scaleVol
    ext t y x ch
    · rfl
    · rfl
    · rfl
    · rfl
    · show F.data t y x ch * (2 * amplification_factor)
        = 2 * (F.data t y x ch * amplification_factor)
      ring

/-- Step 3 of `eulerian_magnification` in `src/app/evm.py` for one
level: filter the level if `level_idx < pyramid_levels - 1` and
`min(level_video.shape[1:3]) > 4`, otherwise substitute
`np.zeros_like(level_video)`. -/
noncomputable def processLevel (pyramid_levels : ℕ)
    (fps low_freq high_freq : ℝ) (level_idx : ℕ) (level_video : Vol) : Vol :=
  if level_idx < pyramid_levels - 1 ∧ 4 < min level_video.h level_video.w then
    bandpassVol fps low_freq high_freq level_video
  else zeros_like level_video

/-- Step 5 of `eulerian_magnification`: the per-frame pyramid level
handed to reconstruction, `original_level + amplified_signal` at
frame `i`. -/
def recombineLevel (original amplified : Vol) (i : ℕ) : Img :=
  ⟨original.h, original.w, original.c,
    fun y x ch => original.data i y x ch + amplified.data i y x ch⟩

/-- Claim C3: for a level index below `pyramid_levels`, exactly the
coarsest level (`index = pyramid_levels - 1`) and the levels whose
smaller spatial dimension is at most 4 get an all-zero amplified
contribution, so their recombined per-frame level equals the original
level exactly; every other level is bandpass filtered (and then
amplified). -/
theorem C3_skip_heuristic (pyramid_levels : ℕ)
    (fps low_freq high_freq amplification_factor : ℝ)
    (level_idx : ℕ) (V : Vol) (hidx : level_idx < pyramid_levels) :
    ((level_idx = pyramid_levels - 1 ∨ min V.h V.w ≤ 4) →
      amplifyVol amplification_factor
          (processLevel pyramid_levels fps low_freq high_freq level_idx V)
        = zeros_like V ∧
      ∀ i, recombineLevel V
          (amplifyVol amplification_factor
            (processLevel pyramid_levels fps low_freq high_freq level_idx V)) i
        = ⟨V.h, V.w, V.c, fun y x ch => V.data i y x ch⟩) ∧
    ((level_idx ≠ pyramid_levels - 1 ∧ 4 < min V.h V.w) →
      processLevel pyramid_levels fps low_freq high_freq level_idx V
        = bandpassVol fps low_freq high_freq V ∧
      amplifyVol amplification_factor
          (processLevel pyramid_levels fps low_freq high_freq level_idx V)
        = amplifyVol amplification_factor
            (bandpassVol fps low_freq high_freq V)) := by
  constructor
  · intro hskip
    have hcond : ¬ (level_idx < pyramid_levels - 1 ∧ 4 < min V.h V.w) := by
      rcases hskip with h | h
      · intro hc
        omega
      · intro hc
        omega
    have hz : processLevel pyramid_levels fps low_freq high_freq level_idx V
        = zeros_like V := by
      unfold processLevel
      rw [if_neg hcond]
    constructor
    · rw [hz]
      unfold amplifyVol zeros_like
      ext t y x ch
      · rfl
      · rfl
      · rfl
      · rfl
      · show (0 : ℝ) * amplification_factor = 0
        exact zero_mul amplification_factor
    · intro i
      rw [hz]
      unfold recombineLevel amplifyVol zeros_like
      ext y x ch
      · rfl
      · rfl
      · rfl
      · show V.data i y x ch + (0 : ℝ) * amplification_factor = V.data i y x ch
        rw [zero_mul, add_zero]
  · intro hpass
    obtain ⟨hne, hmin⟩ := hpass
    have hp : processLevel pyramid_levels fps low_freq high_freq level_idx V
        = bandpassVol fps low_freq high_freq V := by
      unfold processLevel
      rw [if_pos ⟨by omega, hmin⟩]
    exact ⟨hp, by rw [hp]⟩

/-- A concrete 10-frame 32 by 32 temporal volume. -/
def Vbig : Vol := ⟨10, 32, 32, 3, fun _ _ _ _ => 1⟩

theorem C3_skip_heuristic_witness :
    amplifyVol 20 (processLevel 4 1 1 2 3 Vbig) = zeros_like Vbig :=
  ((C3_skip_heuristic 4 1 1 2 20 3 Vbig (by decide)).1 (Or.inl rfl)).1

/-!
Claim C9 needs the in-place/aliasing behaviour of the filter body, so
that part of `temporal_bandpass_filter` is embedded as state-passing
code over an explicit store of numpy array buffers: `np.fft.fft`
allocates a fresh buffer, `.copy()` allocates a fresh buffer,
`fft_data_filtered[~mask] = 0` writes the copy in place, and
`np.fft.ifft(...)` followed by `.real` produces the returned buffer
(`.real` is a view of the fresh ifft result, never of the input).
-/

/-- A store of numpy array buffers; addresses `0, ..., size - 1` are
live, `val a` is the buffer at address `a` (a complex array indexed
by time and a flattened spatial/channel position). -/
structure Heap where
  size : ℕ
  val : ℕ → ℕ → ℕ → ℂ

/-- Allocate a fresh buffer at the next free address. -/
def Heap.alloc (st : Heap) (a : ℕ → ℕ → ℂ) : Heap :=
  ⟨st.size + 1, fun i => if i = st.size then a else st.val i⟩

/-- Overwrite the buffer at address `p` in place. -/
def Heap.write (st : Heap) (p : ℕ) (a : ℕ → ℕ → ℂ) : Heap :=
  ⟨st.size, fun i => if i = p then a else st.val i⟩

/-- `np.fft.fft(data, axis=0)` on a whole buffer. -/
noncomputable def fftArr (n : ℕ) (a : ℕ → ℕ → ℂ) : ℕ → ℕ → ℂ :=
  fun k p => ∑ s in Finset.range n, a s p * dftRoot n ^ (k * s)

/-- `fft_data_filtered[~mask] = 0` as a value: time slices outside
the passband zeroed, the rest kept. -/
noncomputable def maskArr (n : ℕ) (fps low_freq high_freq : ℝ)
    (a : ℕ → ℕ → ℂ) : ℕ → ℕ → ℂ :=
  fun k p =>
    if low_freq ≤ |fftfreq n fps k| ∧ |fftfreq n fps k| ≤ high_freq then
      a k p
    else 0

/-- `np.fft.ifft(..., axis=0)` on a whole buffer. -/
noncomputable def ifftArr (n : ℕ) (a : ℕ → ℕ → ℂ) : ℕ → ℕ → ℂ :=
  fun t p => (n : ℂ)⁻¹ * ∑ k in Finset.range n, a k p * idftRoot n ^ (k * t)

/-- `filtered_data.real`, the real part of a buffer. -/
noncomputable def realArr (a : ℕ → ℕ → ℂ) : ℕ → ℕ → ℂ :=
  fun t p => ((a t p).re : ℂ)

/-- The body of `temporal_bandpass_filter(data, ...)` as state-passing
code over the buffer store, `dataPtr` being the address of the input
volume `data`; returns the final store and the address of the
returned buffer. -/
noncomputable def runTemporalBandpassFilter (n : ℕ)
    (fps low_freq high_freq : ℝ) (st : Heap) (dataPtr : ℕ) : Heap × ℕ :=
  let st1 := st.alloc (fftArr n (st.val dataPtr))
  let fftPtr := st.size
  let st2 := st1.alloc (st1.val fftPtr)
  let filtPtr := st1.size
  let st3 := st2.write filtPtr
    (maskArr n fps low_freq high_freq (st2.val filtPtr))
  let st4 := st3.alloc (realArr (ifftArr n (st3.val filtPtr)))
  (st4, st3.size)

lemma maskArr_fftArr_eq_maskedFFT (n : ℕ) (fps low_freq high_freq : ℝ)
    (a : ℕ → ℕ → ℂ) (hreal : ∀ s p, (a s p).im = 0) (k p : ℕ) :
    maskArr n fps low_freq high_freq (fftArr n a) k p
      = maskedFFT n fps low_freq high_freq (fun s => (a s p).re) k := by
  unfold maskArr maskedFFT
  by_cases hP : low_freq ≤ |fftfreq n fps k| ∧ |fftfreq n fps k| ≤ high_freq
  · rw [if_pos hP, if_pos hP]
    unfold fftArr npFFT
    refine Finset.sum_congr rfl fun s _ => ?_
    have hv : a s p = (((a s p).re : ℝ) : ℂ) := by
      apply Complex.ext
      · rfl
      · simpa using hreal s p
    rw [← hv]
  · rw [if_neg hP, if_neg hP]

lemma realArr_ifftArr_eq_filter (n : ℕ) (fps low_freq high_freq : ℝ)
    (a : ℕ → ℕ → ℂ) (hreal : ∀ s p, (a s p).im = 0) (t p : ℕ) :
    realArr (ifftArr n (maskArr n fps low_freq high_freq (fftArr n a))) t p
      = ((temporal_bandpass_filter n fps low_freq high_freq
          (fun s => (a s p).re) t : ℝ) : ℂ) := by
  have h1 : ifftArr n (maskArr n fps low_freq high_freq (fftArr n a)) t p
      = npIFFT n
          (maskedFFT n fps low_freq high_freq (fun s => (a s p).re)) t := by
    unfold ifftArr npIFFT
    congr 1
    refine Finset.sum_congr rfl fun k _ => ?_
    rw [maskArr_fftArr_eq_maskedFFT n fps low_freq high_freq a hreal k p]
  unfold realArr temporal_bandpass_filter
  rw [h1]

/-- Claim C9: the filter body never mutates its input buffer (nor any
other pre-existing buffer): the FFT result is a fresh buffer, the
mask assignment writes only the `.copy()` of it, and the returned
buffer is freshly computed from the ORIGINAL input values; moreover
the returned buffer holds exactly the pure per-series filter of the
input, and recombination forms each output level as
`original + amplified` new data. -/
theorem C9_no_input_mutation (n : ℕ) (fps low_freq high_freq : ℝ)
    (st : Heap) (dataPtr : ℕ) (hp : dataPtr < st.size)
    (hreal : ∀ s p, (st.val dataPtr s p).im = 0) :
    (∀ q, q < st.size →
      (runTemporalBandpassFilter n fps low_freq high_freq st dataPtr).1.val q
        = st.val q) ∧
    ((runTemporalBandpassFilter n fps low_freq high_freq st dataPtr).1.val
        (runTemporalBandpassFilter n fps low_freq high_freq st dataPtr).2
      = realArr (ifftArr n
          (maskArr n fps low_freq high_freq (fftArr n (st.val dataPtr))))) ∧
    (∀ t p,
      (runTemporalBandpassFilter n fps low_freq high_freq st dataPtr).1.val
          (runTemporalBandpassFilter n fps low_freq high_freq st dataPtr).2 t p
        = ((temporal_bandpass_filter n fps low_freq high_freq
            (fun s => (st.val dataPtr s p).re) t : ℝ) : ℂ)) ∧
    (∀ (original amplified : Vol) (i : ℕ),
      recombineLevel original amplified i
        = ⟨original.h, original.w, original.c,
            fun y x ch => original.data i y x ch + amplified.data i y x ch⟩) := by
  have hres :
      (runTemporalBandpassFilter n fps low_freq high_freq st dataPtr).1.val
          (runTemporalBandpassFilter n fps low_freq high_freq st dataPtr).2
        = realArr (ifftArr n
            (maskArr n fps low_freq high_freq (fftArr n (st.val dataPtr)))) := by
    simp [runTemporalBandpassFilter, Heap.alloc, Heap.write]
  refine ⟨?_, hres, ?_, fun original amplified i => rfl⟩
  · intro q hq
    simp only [runTemporalBandpassFilter, Heap.alloc, Heap.write]
    rw [if_neg (by omega), if_neg (by omega), if_neg (by omega),
      if_neg (by omega)]
  · intro t p
    rw [hres]
    exact realArr_ifftArr_eq_filter n fps low_freq high_freq
      (st.val dataPtr) hreal t p

/-- A concrete one-buffer store holding a constant real-valued
volume. -/
def heap0 : Heap := ⟨1, fun _ _ _ => 3⟩

theorem C9_no_input_mutation_witness :
    (runTemporalBandpassFilter 2 30 1 2 heap0 0).1.val 0 = heap0.val 0 :=
  (C9_no_input_mutation 2 30 1 2 heap0 0 (by decide)
    (fun _ _ => by simp [heap0])).1 0 (by decide)
